import Mathlib

/-!
Verification development for the lex-pdftotext text-canonicalization core.

The Python sources are shallowly embedded over `List Char` (a Python `str`
is its sequence of characters; `String` wrappers mirror the public entry
points).  Regex substitutions from the source are embedded as explicit
left-to-right, non-overlapping scanning functions with maximal-munch
semantics for the character classes involved (the concrete patterns used by
the source have disjoint adjacent character classes, so maximal munch agrees
with the backtracking engine).  Functions whose file is absent from the tree
(`utils/patterns.py`, `processors/metadata_parser.py`) are modelled from the
specification and marked as such in their doc comments.
-/

namespace Lex

set_option maxRecDepth 65536

/-- Whitespace test matching the whitespace class relevant to the embedded
texts (space, tab, newline, carriage return). -/
def isWs (c : Char) : Bool :=
  c == ' ' || c == '\t' || c == '\n' || c == '\r'

/-- Python `str.lstrip()` on a character list. -/
def lstrip : List Char → List Char
  | [] => []
  | c :: cs => if isWs c then lstrip cs else c :: cs

/-- Python `str.rstrip()` on a character list. -/
def rstrip (l : List Char) : List Char :=
  (lstrip l.reverse).reverse

/-- Python `str.strip()` on a character list. -/
def strip (l : List Char) : List Char :=
  rstrip (lstrip l)

/-- The non-whitespace characters of a list, in order. -/
def dropWs (l : List Char) : List Char :=
  l.filter (fun c => !isWs c)

/-- `true` iff the list contains no whitespace character. -/
def wsFreeB (l : List Char) : Bool :=
  l.all (fun c => !isWs c)

def splitLinesGo : List Char → List Char → List (List Char)
  | [], acc => [acc.reverse]
  | c :: rest, acc =>
    if c = '\n' then acc.reverse :: splitLinesGo rest []
    else splitLinesGo rest (c :: acc)

/-- Python `text.split(chr(10))`. -/
def splitLines (l : List Char) : List (List Char) :=
  splitLinesGo l []

/-- Python `(chr(10)).join(lines)`. -/
def joinLines (ls : List (List Char)) : List Char :=
  (List.intersperse ['\n'] ls).flatten

/-- `re.sub(r"( )+", " ", line)`: collapse runs of space characters. -/
def collapseSpaces : List Char → List Char
  | [] => []
  | [c] => [c]
  | c :: c2 :: rest =>
    if c = ' ' && c2 = ' ' then collapseSpaces (c2 :: rest)
    else c :: collapseSpaces (c2 :: rest)

/-- Uppercase/lowercase pairs for the accented Latin letters occurring in
the Brazilian legal lexicon of the source. -/
def accentPairs : List (Char × Char) :=
  [('Á', 'á'), ('À', 'à'), ('Â', 'â'), ('Ã', 'ã'),
   ('É', 'é'), ('Ê', 'ê'), ('Í', 'í'),
   ('Ó', 'ó'), ('Ô', 'ô'), ('Õ', 'õ'),
   ('Ú', 'ú'), ('Ü', 'ü'), ('Ç', 'ç')]

/-- Python `str.lower` on one character (ASCII plus the accented letters). -/
def lowerChar (c : Char) : Char :=
  if 'A' ≤ c && c ≤ 'Z' then Char.ofNat (c.toNat + 32)
  else (((accentPairs.find? (fun p => p.1 = c)).map Prod.snd).getD c)

/-- Python `str.upper` on one character (ASCII plus the accented letters). -/
def upperChar (c : Char) : Char :=
  if 'a' ≤ c && c ≤ 'z' then Char.ofNat (c.toNat - 32)
  else (((accentPairs.find? (fun p => p.2 = c)).map Prod.fst).getD c)

def isLowerLetter (c : Char) : Bool :=
  ('a' ≤ c && c ≤ 'z') || accentPairs.any (fun p => p.2 = c)

def isUpperLetter (c : Char) : Bool :=
  ('A' ≤ c && c ≤ 'Z') || accentPairs.any (fun p => p.1 = c)

def isLetterChar (c : Char) : Bool :=
  isLowerLetter c || isUpperLetter c

def isDigitChar (c : Char) : Bool :=
  '0' ≤ c && c ≤ '9'

/-- Regex `\w` (letter, digit or underscore). -/
def isWordChar (c : Char) : Bool :=
  isLetterChar c || isDigitChar c || c = '_'

/-- Case-insensitive literal match; returns the rest of the input on
success. -/
def matchLitCI : List Char → List Char → Option (List Char)
  | [], rest => some rest
  | _ :: _, [] => none
  | p :: ps, c :: cs =>
    if lowerChar c = lowerChar p then matchLitCI ps cs else none

/-- Case-sensitive literal match; returns the rest of the input on
success. -/
def matchLitCS : List Char → List Char → Option (List Char)
  | [], rest => some rest
  | _ :: _, [] => none
  | p :: ps, c :: cs =>
    if c = p then matchLitCS ps cs else none

/-- The brace characters, kept out of string literals. -/
def lbrace : Char := Char.ofNat 123

def rbrace : Char := Char.ofNat 125

/-- Matcher for the source regex `Num\.\s*\d+\s*-\s*P[áa]g\.\s*\d+`
(IGNORECASE): on success returns the number of characters consumed. -/
def matchNumPag (l : List Char) : Option Nat := do
  let r1 ← matchLitCI ("Num.".data) l
  let r2 := r1.dropWhile isWs
  let (ds, r3) := r2.span isDigitChar
  if ds.isEmpty then none
  else
    match r3.dropWhile isWs with
    | '-' :: r5 =>
      let r6 := r5.dropWhile isWs
      let r7 ← matchLitCI ("Pág.".data) r6
      let r8 := r7.dropWhile isWs
      let (ds2, r9) := r8.span isDigitChar
      if ds2.isEmpty then none else some (l.length - r9.length)
    | _ => none

/-- Matcher for the source regex `---\s*página\s*\{\}\s*---` (IGNORECASE),
with the literal braces built from their code points. -/
def matchPagBrace (l : List Char) : Option Nat := do
  let r1 ← matchLitCI ("---".data) l
  let r2 := r1.dropWhile isWs
  let r3 ← matchLitCI ("página".data) r2
  match r3.dropWhile isWs with
  | a :: b :: r5 =>
    if a = lbrace ∧ b = rbrace then
      let r6 := r5.dropWhile isWs
      let r7 ← matchLitCI ("---".data) r6
      some (l.length - r7.length)
    else none
  | _ => none

/-- Matcher for a numbered page marker `---\s*página\s*\d+\s*---`
(IGNORECASE). -/
def matchPagNum (l : List Char) : Option Nat := do
  let r1 ← matchLitCI ("---".data) l
  let r2 := r1.dropWhile isWs
  let r3 ← matchLitCI ("página".data) r2
  let r4 := r3.dropWhile isWs
  let (ds, r5) := r4.span isDigitChar
  if ds.isEmpty then none
  else
    let r6 := r5.dropWhile isWs
    let r7 ← matchLitCI ("---".data) r6
    some (l.length - r7.length)

/-- Matcher for a verification-code URL: `https?://` followed by the maximal
run of non-whitespace characters. -/
def matchUrl (l : List Char) : Option Nat :=
  match matchLitCI ("https://".data) l with
  | some r =>
    some (l.length - (r.dropWhile (fun c => !isWs c)).length)
  | none =>
    match matchLitCI ("http://".data) l with
    | some r =>
      some (l.length - (r.dropWhile (fun c => !isWs c)).length)
    | none => none

/-- `re.sub(pattern, "", text)`: left-to-right non-overlapping removal of
every match, scanning the not-yet-rewritten remainder only (matches created
by an earlier removal in the same pass are not removed).  `fuel` bounds the
recursion; it is instantiated with the input length. -/
def subPattern (m : List Char → Option Nat) : Nat → List Char → List Char
  | 0, l => l
  | _ + 1, [] => []
  | fuel + 1, c :: cs =>
    match m (c :: cs) with
    | some n => subPattern m fuel ((c :: cs).drop n)
    | none => c :: subPattern m fuel cs

/-- Run a single-pass substitution deleting every match of `m`. -/
def runSub (m : List Char → Option Nat) (l : List Char) : List Char :=
  subPattern m l.length l

namespace RegexPatterns

/-- Modelled from the spec: `RegexPatterns.clean_noise`
(`src/utils/patterns.py` is absent from the tree).  Per the spec it strips
known boilerplate - page-footer `Num. X - Pág. Y` text, bare numbered page
markers, and verification-code URLs - without otherwise altering content. -/
def clean_noise (l : List Char) : List Char :=
  runSub matchUrl (runSub matchPagNum (runSub matchNumPag l))

/-- Modelled from the spec: `RegexPatterns.is_all_caps`
(`src/utils/patterns.py` is absent from the tree).  True iff the line,
ignoring digits, punctuation and whitespace, contains only uppercase
letters, i.e. contains no lowercase letter. -/
def is_all_caps (l : List Char) : Bool :=
  l.all (fun c => !isLowerLetter c)

/-- Modelled from the spec: the fixed acronym whitelist backing
`RegexPatterns.LEGAL_ACRONYMS` (`src/utils/patterns.py` is absent from the
tree); the spec names OAB, STF, STJ, CPC as its representative members. -/
def legalAcronyms : List (List Char) :=
  [("OAB".data), ("STF".data), ("STJ".data), ("CPC".data)]

end RegexPatterns

/-- Try to match one whitelisted acronym at the head of the input, requiring
a word boundary after it; returns the acronym and the rest. -/
def tryAcros : List (List Char) → List Char → Option (List Char × List Char)
  | [], _ => none
  | a :: as, l =>
    match matchLitCS a l with
    | some rest =>
      match rest with
      | [] => some (a, rest)
      | c :: _ => if isWordChar c then tryAcros as l else some (a, rest)
    | none => tryAcros as l

/-- The placeholder string for the `n`-th acronym found on a line. -/
def placeholderFor (n : Nat) : List Char :=
  ("__ACRONYM".data) ++ Nat.toDigits 10 n ++ ("__".data)

/-- `RegexPatterns.LEGAL_ACRONYMS.sub(replace_acronym, line)`: scan the line
left to right; at each word boundary substitute a matched whitelisted
acronym with a fresh placeholder, recording the mapping in match order.
`prevW` tracks whether the previous character is a word character (regex
word-boundary state); `k` is the next placeholder index. -/
def acroSub : Nat → List Char → Bool → Nat → List Char × List (List Char × List Char)
  | 0, l, _, _ => (l, [])
  | _ + 1, [], _, _ => ([], [])
  | fuel + 1, c :: cs, prevW, k =>
    if prevW then
      let (out, m) := acroSub fuel cs (isWordChar c) k
      (c :: out, m)
    else
      match tryAcros RegexPatterns.legalAcronyms (c :: cs) with
      | some (a, rest) =>
        let (out, m) := acroSub fuel rest true (k + 1)
        (placeholderFor k ++ out, (placeholderFor k, a) :: m)
      | none =>
        let (out, m) := acroSub fuel cs (isWordChar c) k
        (c :: out, m)

def isTermCh (c : Char) : Bool :=
  c = '.' || c = '!' || c = '?'

def isAsciiLower (c : Char) : Bool :=
  'a' ≤ c && c ≤ 'z'

/-- State for the `([.!?]\s+)([a-z])` capitalization scan. -/
inductive CapSt
  | norm
  | term
  | termWs

/-- `re.sub(r"([.!?]\s+)([a-z])", ..., line)`: uppercase an ASCII lowercase
letter that follows sentence-ending punctuation plus whitespace. -/
def capAfterGo : List Char → CapSt → List Char
  | [], _ => []
  | c :: cs, CapSt.norm =>
    if isTermCh c then c :: capAfterGo cs CapSt.term
    else c :: capAfterGo cs CapSt.norm
  | c :: cs, CapSt.term =>
    if isWs c then c :: capAfterGo cs CapSt.termWs
    else if isTermCh c then c :: capAfterGo cs CapSt.term
    else c :: capAfterGo cs CapSt.norm
  | c :: cs, CapSt.termWs =>
    if isAsciiLower c then upperChar c :: capAfterGo cs CapSt.norm
    else if isWs c then c :: capAfterGo cs CapSt.termWs
    else if isTermCh c then c :: capAfterGo cs CapSt.term
    else c :: capAfterGo cs CapSt.norm

/-- Python `str.replace(pat, rep)`: replace every occurrence, left to right,
non-overlapping.  `fuel` is instantiated with the input length. -/
def replaceAll : Nat → List Char → List Char → List Char → List Char
  | 0, l, _, _ => l
  | _ + 1, [], _, _ => []
  | fuel + 1, c :: cs, pat, rep =>
    match matchLitCS pat (c :: cs) with
    | some rest => rep ++ replaceAll fuel rest pat rep
    | none => c :: replaceAll fuel cs pat rep

namespace TextNormalizer

/-- `TextNormalizer._convert_to_sentence_case` (with the default
`preserve_acronyms=True`): replace acronyms by placeholders, lowercase,
capitalize the first character, capitalize after sentence punctuation, then
restore each placeholder (matched in lowercase) to its acronym. -/
def convert_to_sentence_case (line : List Char) : List Char :=
  let (l1, amap) := acroSub line.length line false 0
  let l2 := l1.map lowerChar
  let l3 :=
    match l2 with
    | [] => []
    | c :: cs => upperChar c :: cs
  let l4 := capAfterGo l3 CapSt.norm
  amap.foldl (fun acc pa => replaceAll acc.length acc (pa.1.map lowerChar) pa.2) l4

/-- `TextNormalizer._normalize_uppercase`: sentence-case each line whose
stripped form is classified all-caps; other lines pass through. -/
def normalize_uppercase (l : List Char) : List Char :=
  joinLines ((splitLines l).map (fun line =>
    if strip line = [] then line
    else if RegexPatterns.is_all_caps (strip line) then convert_to_sentence_case line
    else line))

/-- The consecutive-duplicate / blank-run pass of
`TextNormalizer._normalize_whitespace`: `prev` is the last seen non-blank
line (not reset by blank lines), `emptyCnt` the current run of blank
lines. -/
def dedupeGo : List (List Char) → Option (List Char) → Nat → List (List Char)
  | [], _, _ => []
  | line :: rest, prev, emptyCnt =>
    if strip line = [] then
      if emptyCnt + 1 ≤ 1 then line :: dedupeGo rest prev (emptyCnt + 1)
      else dedupeGo rest prev (emptyCnt + 1)
    else
      if some line = prev then dedupeGo rest (some line) 0
      else line :: dedupeGo rest (some line) 0

/-- Newline-run capping: a run of `≥ k` newlines becomes exactly two
(`re.sub` with `\n\n+` for `k = 2`, `\n{3,}` for `k = 3`). -/
def capNlGo (k : Nat) : Nat → List Char → List Char
  | 0, l => l
  | _ + 1, [] => []
  | fuel + 1, c :: cs =>
    if c = '\n' then
      let (nls, rest) := (c :: cs).span (fun x => x = '\n')
      (if k ≤ nls.length then ['\n', '\n'] else nls) ++ capNlGo k fuel rest
    else c :: capNlGo k fuel cs

/-- `TextNormalizer._normalize_whitespace`: right-strip each line, collapse
space runs, drop duplicate non-blank lines (tracking the last non-blank
line) and cap blank runs, re-join, cap newline runs, strip the whole
text. -/
def normalize_whitespaceL (l : List Char) : List Char :=
  let lines := (splitLines l).map rstrip
  let lines := lines.map collapseSpaces
  let deduped := dedupeGo lines none 0
  let t := joinLines deduped
  let t := capNlGo 2 t.length t
  strip t

/-- The blank-line capping loop of `TextNormalizer._final_cleanup` (`line ==
""` counts as blank). -/
def blankCapGo : List (List Char) → Nat → List (List Char)
  | [], _ => []
  | line :: rest, blankCnt =>
    if line = [] then
      if blankCnt + 1 ≤ 1 then line :: blankCapGo rest (blankCnt + 1)
      else blankCapGo rest (blankCnt + 1)
    else line :: blankCapGo rest 0

/-- `TextNormalizer._final_cleanup`: empty out whitespace-only lines, keep
at most one consecutive blank line, collapse remaining newline runs of three
or more, strip the whole text. -/
def final_cleanupL (l : List Char) : List Char :=
  let lines := (splitLines l).map (fun line =>
    if line ≠ [] ∧ line.all isWs then [] else line)
  let cleaned := blankCapGo lines 0
  let t := joinLines cleaned
  let t := capNlGo 3 t.length t
  strip t

/-- `TextNormalizer._clean_noise`: delegate to `RegexPatterns.clean_noise`,
then remove `Num. X - Pág. Y` footers, then remove standalone `--- página
\x7b\x7d ---` markers. -/
def clean_noiseL (l : List Char) : List Char :=
  let l1 := RegexPatterns.clean_noise l
  let l2 := runSub matchNumPag l1
  runSub matchPagBrace l2

/-- `TextNormalizer.normalize`: the four-stage pipeline - noise removal,
uppercase normalization, whitespace normalization, final cleanup. -/
def normalize (s : String) : String :=
  ⟨final_cleanupL (normalize_whitespaceL (normalize_uppercase (clean_noiseL s.data)))⟩

/-- String-level wrapper of `TextNormalizer._normalize_whitespace`. -/
def normalize_whitespace (s : String) : String :=
  ⟨normalize_whitespaceL s.data⟩

end TextNormalizer

/-- One record of `document_positions`: a physical occurrence of a
`Num. <digits>` document-id token. -/
structure DocPosition where
  id : String
  line : Nat
  position : Nat
  context_before : String
  context_after : String
deriving Repr, DecidableEq

/-- The fields of `DocumentMetadata` consumed by the components embedded
here (chunker base metadata and position records); every field defaults to
its absent/empty sentinel. -/
structure DocumentMetadata where
  process_number : Option String := none
  document_ids : List String := []
  document_positions : List DocPosition := []
  court : Option String := none
  author : Option String := none
  defendant : Option String := none
deriving Repr, DecidableEq

/-- Matcher for the document-id token `Num\.\s*(\d+)`: on success returns
the digits, the offset of the first digit and the total match length. -/
def matchNumId (l : List Char) : Option (List Char × Nat × Nat) := do
  let r1 ← matchLitCS ("Num.".data) l
  let r2 := r1.dropWhile isWs
  let (ds, r3) := r2.span isDigitChar
  if ds.isEmpty then none
  else some (ds, l.length - r2.length, l.length - r3.length)

def countNl (l : List Char) : Nat :=
  (l.filter (fun c => c = '\n')).length

/-- The last `n` characters of a list. -/
def lastN (n : Nat) (l : List Char) : List Char :=
  l.drop (l.length - n)

/-- Scan for document-id occurrences: `orig` is the full text, `i` the
current absolute offset, the third argument the unscanned suffix.  Each
record carries a 1-based line number, the absolute offset of the digits and
30-character context windows. -/
def extractPosGo (orig : List Char) : Nat → Nat → List Char → List DocPosition
  | 0, _, _ => []
  | _ + 1, _, [] => []
  | fuel + 1, i, c :: cs =>
    match matchNumId (c :: cs) with
    | some (ds, dOff, len) =>
      { id := ⟨ds⟩
        line := countNl (orig.take i) + 1
        position := i + dOff
        context_before := ⟨lastN 30 (orig.take i)⟩
        context_after := ⟨(orig.drop (i + len)).take 30⟩ } ::
        extractPosGo orig fuel (i + len) ((c :: cs).drop len)
    | none => extractPosGo orig fuel (i + 1) cs

namespace RegexPatterns

/-- Modelled from the spec: `RegexPatterns.extract_document_ids_with_positions`
(`src/utils/patterns.py` is absent from the tree).  One record per physical
occurrence, no deduplication, 1-based line numbers, absolute character
offsets and fixed-width context windows. -/
def extract_document_ids_with_positions (s : String) : List DocPosition :=
  extractPosGo s.data s.data.length 0 s.data

/-- First-occurrence-order deduplication. -/
def dedupFirstGo : List String → List String → List String
  | [], _ => []
  | x :: xs, seen =>
    if x ∈ seen then dedupFirstGo xs seen
    else x :: dedupFirstGo xs (x :: seen)

/-- Modelled from the spec: `RegexPatterns.extract_document_ids`
(`src/utils/patterns.py` is absent from the tree): all `Num. <digits>`
ids, first-occurrence order, duplicates collapsed. -/
def extract_document_ids (s : String) : List String :=
  dedupFirstGo ((extract_document_ids_with_positions s).map (fun p => p.id)) []

/-- Exactly `n` digits. -/
def exactDigits : Nat → List Char → Option (List Char)
  | 0, rest => some rest
  | _ + 1, [] => none
  | n + 1, c :: cs => if isDigitChar c then exactDigits n cs else none

def matchCh (ch : Char) : List Char → Option (List Char)
  | [] => none
  | c :: cs => if c = ch then some cs else none

/-- Matcher for the CNJ process-number pattern
`\d{7}-\d{2}\.\d{4}\.\d\.\d{2}\.\d{4}`. -/
def matchCNJ (l : List Char) : Option Nat := do
  let r1 ← exactDigits 7 l
  let r2 ← matchCh '-' r1
  let r3 ← exactDigits 2 r2
  let r4 ← matchCh '.' r3
  let r5 ← exactDigits 4 r4
  let r6 ← matchCh '.' r5
  let r7 ← exactDigits 1 r6
  let r8 ← matchCh '.' r7
  let r9 ← exactDigits 2 r8
  let r10 ← matchCh '.' r9
  let r11 ← exactDigits 4 r10
  some (l.length - r11.length)

/-- First match of a pattern anywhere in the text (regex search). -/
def findFirstGo (m : List Char → Option Nat) : Nat → List Char → Option (List Char)
  | 0, _ => none
  | _ + 1, [] => none
  | fuel + 1, c :: cs =>
    match m (c :: cs) with
    | some n => some ((c :: cs).take n)
    | none => findFirstGo m fuel cs

/-- Modelled from the spec: `RegexPatterns.extract_process_number`
(`src/utils/patterns.py` is absent from the tree): first CNJ match, `none`
if absent. -/
def extract_process_number (s : String) : Option String :=
  (findFirstGo matchCNJ s.data.length s.data).map (fun l => ⟨l⟩)

end RegexPatterns

/-- First index at which the pattern matches case-insensitively. -/
def findSubIdxGo (pat : List Char) : Nat → Nat → List Char → Option Nat
  | 0, _, _ => none
  | fuel + 1, i, l =>
    match matchLitCI pat l with
    | some _ => some i
    | none =>
      match l with
      | [] => none
      | _ :: cs => findSubIdxGo pat fuel (i + 1) cs

/-- Value of a labeled field on one line: the text after the label,
stripped. -/
def afterLabel (label : List Char) (line : List Char) : Option (List Char) :=
  match findSubIdxGo label (line.length + 1) 0 line with
  | some i => some (strip (line.drop (i + label.length)))
  | none => none

/-- Labeled-field heuristic: first line containing the label
(case-insensitive), value captured to end of line. -/
def extractLabeled (label : String) (s : String) : Option String :=
  ((splitLines s.data).findSome? (afterLabel label.data)).map (fun l => ⟨l⟩)

namespace MetadataParser

/-- Modelled from the spec: `MetadataParser.parse(raw_text, normalized_text)`
(`src/processors/metadata_parser.py` is absent from the tree).  Document-id
position extraction runs on `raw_text`, the pre-normalization snapshot;
party, court and process-number extraction canonically use
`normalized_text`.  Every field defaults to its absent/empty sentinel. -/
def parse (raw_text : String) (normalized_text : String) : DocumentMetadata :=
  { process_number := RegexPatterns.extract_process_number normalized_text
    document_ids := RegexPatterns.extract_document_ids raw_text
    document_positions := RegexPatterns.extract_document_ids_with_positions raw_text
    court := (extractLabeled ("Vara:") normalized_text) <|> (extractLabeled ("Tribunal:") normalized_text)
    author := extractLabeled ("Autor:") normalized_text
    defendant := extractLabeled ("Réu:") normalized_text }

end MetadataParser

/-- The per-chunk metadata snapshot: the five base fields plus the chunk
index (`{**base_metadata, chunk_index: i}`). -/
structure ChunkMeta where
  process_number : String
  document_ids : String
  court : String
  author : String
  defendant : String
  chunk_index : Nat
deriving Repr, DecidableEq

/-- One RAG chunk: text, metadata snapshot, and the chunk-level index. -/
structure Chunk where
  text : String
  metadata : ChunkMeta
  chunk_index : Nat
deriving Repr, DecidableEq

/-- The metadata snapshot attached to the chunk of index `i`
(`base_metadata` with `chunk_index` added). -/
def baseMetaOf (md : DocumentMetadata) (i : Nat) : ChunkMeta :=
  { process_number := md.process_number.getD ""
    document_ids := String.intercalate "," md.document_ids
    court := md.court.getD ""
    author := md.author.getD ""
    defendant := md.defendant.getD ""
    chunk_index := i }

/-- Sentence grouping of `re.findall(r"([^.!?]*[.!?]+)", text)` plus the
unterminated remainder: maximal runs of non-terminators followed by the
maximal run of terminators; a trailing terminator-free group is the
remainder. -/
def sentGo : List Char → List Char → Bool → List (List Char)
  | [], acc, _ => if acc = [] then [] else [acc.reverse]
  | c :: rest, acc, inTerm =>
    if isTermCh c then sentGo rest (c :: acc) true
    else
      if inTerm then acc.reverse :: sentGo rest [c] false
      else sentGo rest (c :: acc) false

/-- `sentences = [s.strip() for s in parts if s.strip()]`. -/
def sentencesOf (l : List Char) : List (List Char) :=
  ((sentGo l [] false).map strip).filter (fun s => s ≠ [])

/-- Python `str.split()`: whitespace-delimited words, empties dropped. -/
def wordsGo : List Char → List Char → List (List Char)
  | [], acc => if acc = [] then [] else [acc.reverse]
  | c :: rest, acc =>
    if isWs c then
      if acc = [] then wordsGo rest []
      else acc.reverse :: wordsGo rest []
    else wordsGo rest (c :: acc)

def splitWords (l : List Char) : List (List Char) :=
  wordsGo l []

/-- Accumulator state of the chunking loops: emitted chunks, the pending
chunk text (`current_chunk` or `word_chunk`), and the next chunk index. -/
structure CState where
  chunks : List Chunk
  cur : List Char
  idx : Nat

/-- Append `t.strip()` as a chunk (`chunks.append({...}); chunk_index += 1`). -/
def emitChunk (md : DocumentMetadata) (st : CState) (t : List Char) : CState :=
  { chunks := st.chunks ++
      [{ text := ⟨strip t⟩, metadata := baseMetaOf md st.idx, chunk_index := st.idx }]
    cur := st.cur
    idx := st.idx + 1 }

/-- The inner word loop body of `format_for_rag`: greedy accumulation of
whitespace-free words, flushing the pending word chunk when full. -/
def wordStep (md : DocumentMetadata) (cs : Int) (st : CState) (w : List Char) : CState :=
  if (st.cur.length : Int) + (w.length : Int) + 1 ≤ cs then
    { st with cur := if st.cur = [] then w else st.cur ++ ' ' :: w }
  else
    let st1 := if st.cur = [] then st else emitChunk md st st.cur
    { st1 with cur := w }

/-- The sentence loop body of `format_for_rag`: accumulate the sentence if
it fits; otherwise flush the current chunk, and either word-split an
over-long sentence or start the next chunk with it. -/
def sentStep (md : DocumentMetadata) (cs : Int) (st : CState) (s : List Char) : CState :=
  if (st.cur.length : Int) + (s.length : Int) + 1 ≤ cs then
    { st with cur := if st.cur = [] then s else st.cur ++ ' ' :: s }
  else
    let st1 := if st.cur = [] then st else emitChunk md st st.cur
    if (s.length : Int) > cs then
      (splitWords s).foldl (wordStep md cs) { st1 with cur := [] }
    else { st1 with cur := s }

namespace MarkdownFormatter

/-- `MarkdownFormatter.format_for_rag`: empty/whitespace-only text yields no
chunks; text whose stripped length is at most `chunk_size` yields a single
chunk; otherwise sentences are accumulated greedily, over-long sentences are
word-split, and a final pending chunk is flushed.  When `metadata` is absent
the source calls the metadata parser on `text` alone (its single-argument
call site), embedded as passing `text` for both parser inputs. -/
def format_for_rag (text : String) (metadata : Option DocumentMetadata)
    (chunk_size : Int) : List Chunk :=
  let l := text.data
  if strip l = [] then []
  else
    let md :=
      match metadata with
      | some m => m
      | none => MetadataParser.parse text text
    if ((strip l).length : Int) ≤ chunk_size then
      [{ text := ⟨strip l⟩, metadata := baseMetaOf md 0, chunk_index := 0 }]
    else
      let sts := sentencesOf l
      let st := sts.foldl (sentStep md chunk_size) ⟨[], [], 0⟩
      if st.cur = [] then st.chunks else (emitChunk md st st.cur).chunks

end MarkdownFormatter

namespace IndexGenerator

/-- `IndexGenerator.generate_anchor`. -/
def generate_anchor (doc_id : String) : String :=
  "doc-" ++ doc_id

/-- `IndexGenerator.generate_cross_reference`. -/
def generate_cross_reference (doc_id : String) : String :=
  "[#" ++ doc_id ++ "](#" ++ generate_anchor doc_id ++ ")"

end IndexGenerator

/-- The `DocumentPiece` dataclass of `index_generator.py`. -/
structure DocumentPiece where
  doc_id : String
  doc_type : String
  line : Int
  position : Int
  date : Option String := none
  signatory : Option String := none
  anchor : String := ""
deriving Repr, DecidableEq

/-- `DocumentPiece.__post_init__`: an empty (falsy) anchor is replaced by
`doc-<doc_id>`; nothing else is touched. -/
def DocumentPiece.postInit (p : DocumentPiece) : DocumentPiece :=
  if p.anchor = "" then { p with anchor := "doc-" ++ p.doc_id } else p

/-- Dataclass construction followed by `__post_init__`. -/
def mkDocumentPiece (doc_id doc_type : String) (line position : Int)
    (date signatory : Option String) (anchor : String) : DocumentPiece :=
  DocumentPiece.postInit
    { doc_id := doc_id, doc_type := doc_type, line := line, position := position
      date := date, signatory := signatory, anchor := anchor }

/-! ### Whitespace lemmas -/

theorem dropWs_append (a b : List Char) : dropWs (a ++ b) = dropWs a ++ dropWs b := by
  simp [dropWs, List.filter_append]

theorem dropWs_lstrip (l : List Char) : dropWs (lstrip l) = dropWs l := by
  induction l with
  | nil => rfl
  | cons c cs ih =>
    by_cases h : isWs c = true
    · rw [show lstrip (c :: cs) = lstrip cs by simp [lstrip, h], ih]
      simp [dropWs, List.filter_cons, h]
    · rw [show lstrip (c :: cs) = c :: cs by simp [lstrip, h]]

theorem dropWs_reverse (l : List Char) : dropWs l.reverse = (dropWs l).reverse := by
  induction l with
  | nil => rfl
  | cons c cs ih =>
    rw [List.reverse_cons, dropWs_append, ih]
    by_cases h : isWs c = true
    · simp [dropWs, List.filter_cons, h]
    · simp [dropWs, List.filter_cons, h]

theorem dropWs_rstrip (l : List Char) : dropWs (rstrip l) = dropWs l := by
  have h1 := dropWs_reverse (lstrip l.reverse)
  have h2 := dropWs_lstrip l.reverse
  have h3 := dropWs_reverse l
  rw [rstrip, h1, h2, h3, List.reverse_reverse]

theorem dropWs_strip (l : List Char) : dropWs (strip l) = dropWs l := by
  rw [strip, dropWs_rstrip, dropWs_lstrip]

theorem lstrip_length_le (l : List Char) : (lstrip l).length ≤ l.length := by
  induction l with
  | nil => exact Nat.le_refl _
  | cons c cs ih =>
    by_cases h : isWs c = true
    · rw [show lstrip (c :: cs) = lstrip cs by simp [lstrip, h]]
      exact Nat.le_trans ih (by simp)
    · rw [show lstrip (c :: cs) = c :: cs by simp [lstrip, h]]

theorem rstrip_length_le (l : List Char) : (rstrip l).length ≤ l.length := by
  have := lstrip_length_le l.reverse
  simpa [rstrip] using this

theorem strip_length_le (l : List Char) : (strip l).length ≤ l.length := by
  calc (strip l).length ≤ (lstrip l).length := rstrip_length_le _
    _ ≤ l.length := lstrip_length_le _

theorem lstrip_of_wsFree (l : List Char) (h : wsFreeB l = true) : lstrip l = l := by
  cases l with
  | nil => rfl
  | cons c cs =>
    simp [wsFreeB, List.all_cons] at h
    simp [lstrip, h.1]

theorem wsFreeB_reverse (l : List Char) : wsFreeB l.reverse = wsFreeB l := by
  simp [wsFreeB, List.all_eq_true, List.mem_reverse]

theorem strip_of_wsFree (l : List Char) (h : wsFreeB l = true) : strip l = l := by
  rw [strip, lstrip_of_wsFree l h, rstrip,
    lstrip_of_wsFree l.reverse (by rw [wsFreeB_reverse]; exact h), List.reverse_reverse]

theorem dropWs_of_wsFree (l : List Char) (h : wsFreeB l = true) : dropWs l = l := by
  simp only [wsFreeB, List.all_eq_true] at h
  exact List.filter_eq_self.mpr h

theorem lstrip_eq_nil_of_dropWs (l : List Char) (h : dropWs l = []) : lstrip l = [] := by
  induction l with
  | nil => rfl
  | cons c cs ih =>
    by_cases hc : isWs c = true
    · rw [show lstrip (c :: cs) = lstrip cs by simp [lstrip, hc]]
      refine ih ?_
      rw [show dropWs (c :: cs) = dropWs cs by simp [dropWs, List.filter_cons, hc]] at h
      exact h
    · exfalso
      rw [show dropWs (c :: cs) = c :: dropWs cs by simp [dropWs, List.filter_cons, hc]] at h
      exact List.cons_ne_nil _ _ h

theorem strip_ne_nil_dropWs (l : List Char) (h : strip l ≠ []) : dropWs l ≠ [] := by
  intro hd
  exact h (by rw [strip, lstrip_eq_nil_of_dropWs l hd]; rfl)

/-! ### Sentence and word splitting lemmas -/

theorem sentGo_flatten (l : List Char) :
    ∀ acc t, (sentGo l acc t).flatten = acc.reverse ++ l := by
  induction l with
  | nil =>
    intro acc t
    by_cases h : acc = [] <;> simp [sentGo, h]
  | cons c cs ih =>
    intro acc t
    by_cases hterm : isTermCh c = true
    · simp [sentGo, hterm, ih]
    · cases t with
      | true => simp [sentGo, hterm, ih]
      | false => simp [sentGo, hterm, ih]

theorem dropWs_flatten (L : List (List Char)) :
    dropWs L.flatten = (L.map dropWs).flatten := by
  induction L with
  | nil => rfl
  | cons a as ih => simp [List.flatten_cons, dropWs_append, ih]

theorem flatten_map_filter_ne_nil (L : List (List Char)) (f : List Char → List Char)
    (hf : f [] = []) :
    (((L.filter (fun s => s ≠ [])).map f)).flatten = (L.map f).flatten := by
  induction L with
  | nil => rfl
  | cons a as ih =>
    by_cases h : a = []
    · subst h
      rw [show List.filter (fun s => s ≠ []) (([] : List Char) :: as)
          = List.filter (fun s => s ≠ []) as by simp]
      rw [ih]
      simp [hf]
    · rw [show List.filter (fun s => s ≠ []) (a :: as)
          = a :: List.filter (fun s => s ≠ []) as by simp [List.filter_cons, h]]
      simp only [List.map_cons, List.flatten_cons]
      rw [ih]

theorem sentencesOf_content (l : List Char) :
    ((sentencesOf l).map dropWs).flatten = dropWs l := by
  unfold sentencesOf
  rw [flatten_map_filter_ne_nil _ dropWs rfl]
  have h1 : ((sentGo l [] false).map strip).map dropWs
      = (sentGo l [] false).map dropWs := by
    rw [List.map_map]
    exact List.map_congr_left (fun a _ => dropWs_strip a)
  rw [h1, ← dropWs_flatten, sentGo_flatten]
  rfl

theorem wordsGo_flatten (l : List Char) :
    ∀ acc, (wordsGo l acc).flatten = acc.reverse ++ dropWs l := by
  induction l with
  | nil =>
    intro acc
    by_cases h : acc = [] <;> simp [wordsGo, h, dropWs]
  | cons c cs ih =>
    intro acc
    by_cases hws : isWs c = true
    · by_cases hacc : acc = []
      · simp [wordsGo, hws, hacc, ih, dropWs, List.filter_cons]
      · simp [wordsGo, hws, hacc, ih, dropWs, List.filter_cons]
    · simp [wordsGo, hws, ih, dropWs, List.filter_cons]

theorem splitWords_flatten (l : List Char) : (splitWords l).flatten = dropWs l := by
  simpa using wordsGo_flatten l []

theorem wordsGo_wsFree (l : List Char) :
    ∀ acc, wsFreeB acc = true → ∀ w ∈ wordsGo l acc, wsFreeB w = true := by
  induction l with
  | nil =>
    intro acc hacc w hw
    by_cases h : acc = []
    · simp [wordsGo, h] at hw
    · simp [wordsGo, h] at hw
      subst hw
      rw [wsFreeB_reverse]
      exact hacc
  | cons c cs ih =>
    intro acc hacc w hw
    by_cases hws : isWs c = true
    · by_cases hacc0 : acc = []
      · simp [wordsGo, hws, hacc0] at hw
        exact ih [] rfl w hw
      · simp [wordsGo, hws, hacc0] at hw
        cases hw with
        | inl h => subst h; rw [wsFreeB_reverse]; exact hacc
        | inr h => exact ih [] rfl w h
    · simp [wordsGo, hws] at hw
      refine ih (c :: acc) ?_ w hw
      simp [wsFreeB, List.all_cons] at *
      exact ⟨hws, hacc⟩

theorem splitWords_wsFree (l : List Char) : ∀ w ∈ splitWords l, wsFreeB w = true :=
  wordsGo_wsFree l [] rfl

theorem dropWs_space_cons (w : List Char) : dropWs (' ' :: w) = dropWs w := by
  simp [dropWs, List.filter_cons, isWs]

theorem splitWords_map_dropWs (s : List Char) :
    ((splitWords s).map dropWs).flatten = dropWs s := by
  rw [List.map_congr_left (fun w hw => dropWs_of_wsFree w (splitWords_wsFree s w hw))]
  rw [show List.map (fun w : List Char => w) (splitWords s) = splitWords s by
    simp]
  exact splitWords_flatten s

/-! ### Chunk-loop invariants: content preservation -/

/-- The non-whitespace content carried by a loop state: emitted chunks plus
the pending chunk. -/
def stContent (st : CState) : List Char :=
  (st.chunks.map (fun c => dropWs c.text.data)).flatten ++ dropWs st.cur

theorem emit_chunks_content (md : DocumentMetadata) (st : CState) (t : List Char) :
    ((emitChunk md st t).chunks.map (fun c => dropWs c.text.data)).flatten
      = (st.chunks.map (fun c => dropWs c.text.data)).flatten ++ dropWs t := by
  simp [emitChunk, List.map_append, List.flatten_append, dropWs_strip]

theorem wordStep_content (md : DocumentMetadata) (cs : Int) (st : CState) (w : List Char) :
    stContent (wordStep md cs st w) = stContent st ++ dropWs w := by
  unfold wordStep
  by_cases hfit : (st.cur.length : Int) + (w.length : Int) + 1 ≤ cs
  · simp only [hfit, if_true]
    by_cases hcur : st.cur = []
    · simp [stContent, hcur, dropWs]
    · simp [stContent, hcur, dropWs_append, dropWs_space_cons, List.append_assoc]
  · simp only [hfit, if_false]
    by_cases hcur : st.cur = []
    · simp [stContent, hcur, dropWs]
    · simp only [hcur, if_false]
      simp [stContent, emit_chunks_content, dropWs_strip, List.append_assoc,
        show (emitChunk md st st.cur).chunks = st.chunks ++
          [{ text := ⟨strip st.cur⟩, metadata := baseMetaOf md st.idx,
             chunk_index := st.idx }] from rfl,
        List.map_append, List.flatten_append]

theorem foldl_wordStep_content (md : DocumentMetadata) (cs : Int) :
    ∀ (ws : List (List Char)) (st : CState),
      stContent (ws.foldl (wordStep md cs) st) = stContent st ++ (ws.map dropWs).flatten := by
  intro ws
  induction ws with
  | nil => intro st; simp
  | cons w rest ih =>
    intro st
    rw [List.foldl_cons, ih, wordStep_content]
    simp [List.append_assoc]

theorem sentStep_content (md : DocumentMetadata) (cs : Int) (st : CState) (s : List Char) :
    stContent (sentStep md cs st s) = stContent st ++ dropWs s := by
  unfold sentStep
  by_cases hfit : (st.cur.length : Int) + (s.length : Int) + 1 ≤ cs
  · simp only [hfit, if_true]
    by_cases hcur : st.cur = []
    · simp [stContent, hcur, dropWs]
    · simp [stContent, hcur, dropWs_append, dropWs_space_cons, List.append_assoc]
  · simp only [hfit, if_false]
    by_cases hlong : (s.length : Int) > cs
    · simp only [hlong, if_true]
      by_cases hcur : st.cur = []
      · simp only [hcur, if_true]
        rw [foldl_wordStep_content]
        simp [stContent, hcur, dropWs, splitWords_map_dropWs]
      · simp only [hcur, if_false]
        rw [foldl_wordStep_content, splitWords_map_dropWs]
        have h1 : stContent { emitChunk md st st.cur with cur := ([] : List Char) }
            = stContent st := by
          unfold stContent
          rw [show ({ emitChunk md st st.cur with cur := ([] : List Char) } : CState).chunks
              = (emitChunk md st st.cur).chunks from rfl]
          rw [emit_chunks_content]
          simp [dropWs]
        rw [h1]
    · simp only [hlong, if_false]
      by_cases hcur : st.cur = []
      · simp [stContent, hcur, dropWs]
      · simp only [hcur, if_false]
        simp [stContent, emit_chunks_content, List.append_assoc]

theorem foldl_sentStep_content (md : DocumentMetadata) (cs : Int) :
    ∀ (sts : List (List Char)) (st : CState),
      stContent (sts.foldl (sentStep md cs) st) = stContent st ++ (sts.map dropWs).flatten := by
  intro sts
  induction sts with
  | nil => intro st; simp
  | cons s rest ih =>
    intro st
    rw [List.foldl_cons, ih, sentStep_content]
    simp [List.append_assoc]

/-- Content preservation for the full chunker: the chunks carry exactly the
non-whitespace characters of the input, in order. -/
theorem format_for_rag_content (text : String) (md : Option DocumentMetadata) (cs : Int) :
    ((MarkdownFormatter.format_for_rag text md cs).map (fun c => dropWs c.text.data)).flatten
      = dropWs text.data := by
  unfold MarkdownFormatter.format_for_rag
  by_cases hempty : strip text.data = []
  · simp only [hempty, if_true]
    have : dropWs text.data = dropWs (strip text.data) := (dropWs_strip text.data).symm
    rw [this, hempty]
    rfl
  · simp only [hempty, if_false]
    by_cases hshort : (((strip text.data).length : Nat) : Int) ≤ cs
    · simp only [hshort, if_true]
      simp [dropWs_strip]
    · simp only [hshort, if_false]
      set md2 := match md with
        | some m => m
        | none => MetadataParser.parse text text with hmd2
      set st := (sentencesOf text.data).foldl (sentStep md2 cs) ⟨[], [], 0⟩ with hst
      have hcontent : stContent st = (((sentencesOf text.data).map dropWs)).flatten := by
        rw [hst, foldl_sentStep_content]
        simp [stContent, dropWs]
      by_cases hcur : st.cur = []
      · simp only [hcur, if_true]
        have : stContent st
            = (st.chunks.map (fun c => dropWs c.text.data)).flatten := by
          simp [stContent, hcur, dropWs]
        rw [← this, hcontent, sentencesOf_content]
      · simp only [hcur, if_false]
        rw [emit_chunks_content]
        have : (st.chunks.map (fun c => dropWs c.text.data)).flatten ++ dropWs st.cur
            = stContent st := rfl
        rw [this, hcontent, sentencesOf_content]

/-! ### Chunk-loop invariants: sequential indices -/

/-- Index invariant of the chunking loops: the pending index equals the
number of emitted chunks, and both the chunk-level and the metadata-level
indices read `0, 1, 2, ...` in emission order. -/
def IdxOk (st : CState) : Prop :=
  st.idx = st.chunks.length ∧
  st.chunks.map (fun c => c.chunk_index) = List.range st.chunks.length ∧
  st.chunks.map (fun c => c.metadata.chunk_index) = List.range st.chunks.length

theorem idxOk_emit (md : DocumentMetadata) (st : CState) (t : List Char)
    (h : IdxOk st) : IdxOk (emitChunk md st t) := by
  obtain ⟨h1, h2, h3⟩ := h
  refine ⟨?_, ?_, ?_⟩
  · simp [emitChunk, h1]
  · simp [emitChunk, List.map_append, h2, h1, List.range_succ]
  · simp [emitChunk, List.map_append, h3, h1, List.range_succ, baseMetaOf]

theorem idxOk_wordStep (md : DocumentMetadata) (cs : Int) (st : CState) (w : List Char)
    (h : IdxOk st) : IdxOk (wordStep md cs st w) := by
  unfold wordStep
  by_cases hfit : (st.cur.length : Int) + (w.length : Int) + 1 ≤ cs
  · simpa only [hfit, if_true] using h
  · simp only [hfit, if_false]
    by_cases hcur : st.cur = []
    · simpa only [hcur, if_true] using h
    · simpa only [hcur, if_false] using idxOk_emit md st st.cur h

theorem idxOk_foldl_wordStep (md : DocumentMetadata) (cs : Int) :
    ∀ (ws : List (List Char)) (st : CState), IdxOk st →
      IdxOk (ws.foldl (wordStep md cs) st) := by
  intro ws
  induction ws with
  | nil => intro st h; exact h
  | cons w rest ih =>
    intro st h
    rw [List.foldl_cons]
    exact ih _ (idxOk_wordStep md cs st w h)

theorem idxOk_sentStep (md : DocumentMetadata) (cs : Int) (st : CState) (s : List Char)
    (h : IdxOk st) : IdxOk (sentStep md cs st s) := by
  unfold sentStep
  by_cases hfit : (st.cur.length : Int) + (s.length : Int) + 1 ≤ cs
  · simpa only [hfit, if_true] using h
  · simp only [hfit, if_false]
    by_cases hlong : (s.length : Int) > cs
    · simp only [hlong, if_true]
      by_cases hcur : st.cur = []
      · simp only [hcur, if_true]
        exact idxOk_foldl_wordStep md cs _ _ h
      · simp only [hcur, if_false]
        exact idxOk_foldl_wordStep md cs _ _ (idxOk_emit md st st.cur h)
    · simp only [hlong, if_false]
      by_cases hcur : st.cur = []
      · simpa only [hcur, if_true] using h
      · simpa only [hcur, if_false] using idxOk_emit md st st.cur h

theorem idxOk_foldl_sentStep (md : DocumentMetadata) (cs : Int) :
    ∀ (sts : List (List Char)) (st : CState), IdxOk st →
      IdxOk (sts.foldl (sentStep md cs) st) := by
  intro sts
  induction sts with
  | nil => intro st h; exact h
  | cons s rest ih =>
    intro st h
    rw [List.foldl_cons]
    exact ih _ (idxOk_sentStep md cs st s h)

/-- Sequential indexing for the full chunker, in range form. -/
theorem format_for_rag_ranges (text : String) (md : Option DocumentMetadata) (cs : Int) :
    ((MarkdownFormatter.format_for_rag text md cs).map (fun c => c.chunk_index)
      = List.range (MarkdownFormatter.format_for_rag text md cs).length) ∧
    ((MarkdownFormatter.format_for_rag text md cs).map (fun c => c.metadata.chunk_index)
      = List.range (MarkdownFormatter.format_for_rag text md cs).length) := by
  unfold MarkdownFormatter.format_for_rag
  by_cases hempty : strip text.data = []
  · simp [hempty]
  · simp only [hempty, if_false]
    by_cases hshort : (((strip text.data).length : Nat) : Int) ≤ cs
    · simp only [hshort, if_true]
      constructor <;> simp [List.range_succ, baseMetaOf]
    · simp only [hshort, if_false]
      set md2 := match md with
        | some m => m
        | none => MetadataParser.parse text text with hmd2
      set st := (sentencesOf text.data).foldl (sentStep md2 cs) ⟨[], [], 0⟩ with hst
      have hok : IdxOk st := by
        rw [hst]
        exact idxOk_foldl_sentStep md2 cs _ _ ⟨rfl, rfl, rfl⟩
      by_cases hcur : st.cur = []
      · simp only [hcur, if_true]
        exact ⟨hok.2.1, hok.2.2⟩
      · simp only [hcur, if_false]
        have := idxOk_emit md2 st st.cur hok
        exact ⟨this.2.1, this.2.2⟩

/-! ### Chunk-loop invariants: size bound -/

/-- A chunk text is fine for `cs` when it fits, or when it is a single
whitespace-free over-long word. -/
def SizeOk (cs : Int) (t : List Char) : Prop :=
  (t.length : Int) ≤ cs ∨ (wsFreeB t = true ∧ cs < (t.length : Int))

/-- Size invariant of the chunking loops: every emitted chunk and the
pending chunk satisfy `SizeOk`. -/
def SizeInv (cs : Int) (st : CState) : Prop :=
  (∀ c ∈ st.chunks, SizeOk cs c.text.data) ∧ SizeOk cs st.cur

theorem sizeOk_nil (cs : Int) : SizeOk cs [] := by
  rcases le_or_lt 0 cs with h | h
  · left; simpa using h
  · right; exact ⟨rfl, by simpa using h⟩

theorem sizeOk_any (cs : Int) (t : List Char) (hf : wsFreeB t = true) : SizeOk cs t := by
  rcases le_or_lt (t.length : Int) cs with h | h
  · left; exact h
  · right; exact ⟨hf, h⟩

theorem sizeOk_strip (cs : Int) (t : List Char) (h : SizeOk cs t) : SizeOk cs (strip t) := by
  rcases h with h | ⟨hf, hl⟩
  · left
    have hle := strip_length_le t
    have : ((strip t).length : Int) ≤ (t.length : Int) := by exact_mod_cast hle
    exact le_trans this h
  · right
    rw [strip_of_wsFree t hf]
    exact ⟨hf, hl⟩

theorem sizeInv_emit (md : DocumentMetadata) (cs : Int) (st : CState) (t : List Char)
    (h : SizeInv cs st) (ht : SizeOk cs t) : SizeInv cs (emitChunk md st t) := by
  refine ⟨?_, h.2⟩
  intro c hc
  simp only [emitChunk, List.mem_append, List.mem_singleton] at hc
  rcases hc with hc | hc
  · exact h.1 c hc
  · subst hc
    exact sizeOk_strip cs t ht

theorem sizeInv_wordStep (md : DocumentMetadata) (cs : Int) (st : CState) (w : List Char)
    (hw : wsFreeB w = true) (h : SizeInv cs st) : SizeInv cs (wordStep md cs st w) := by
  unfold wordStep
  by_cases hfit : (st.cur.length : Int) + (w.length : Int) + 1 ≤ cs
  · simp only [hfit, if_true]
    refine ⟨h.1, ?_⟩
    by_cases hcur : st.cur = []
    · simp only [hcur, if_true]
      left
      rw [hcur] at hfit
      simp only [List.length_nil] at hfit
      omega
    · simp only [hcur, if_false]
      left
      simp only [List.length_append, List.length_cons]
      push_cast
      omega
  · simp only [hfit, if_false]
    by_cases hcur : st.cur = []
    · simp only [hcur, if_true]
      exact ⟨h.1, sizeOk_any cs w hw⟩
    · simp only [hcur, if_false]
      exact ⟨(sizeInv_emit md cs st st.cur h h.2).1, sizeOk_any cs w hw⟩

theorem sizeInv_foldl_wordStep (md : DocumentMetadata) (cs : Int) :
    ∀ (ws : List (List Char)) (st : CState), (∀ w ∈ ws, wsFreeB w = true) →
      SizeInv cs st → SizeInv cs (ws.foldl (wordStep md cs) st) := by
  intro ws
  induction ws with
  | nil => intro st _ h; exact h
  | cons w rest ih =>
    intro st hws h
    rw [List.foldl_cons]
    exact ih _ (fun x hx => hws x (List.mem_cons_of_mem w hx))
      (sizeInv_wordStep md cs st w (hws w (List.mem_cons_self w rest)) h)

theorem sizeInv_sentStep (md : DocumentMetadata) (cs : Int) (st : CState) (s : List Char)
    (h : SizeInv cs st) : SizeInv cs (sentStep md cs st s) := by
  unfold sentStep
  by_cases hfit : (st.cur.length : Int) + (s.length : Int) + 1 ≤ cs
  · simp only [hfit, if_true]
    refine ⟨h.1, ?_⟩
    by_cases hcur : st.cur = []
    · simp only [hcur, if_true]
      left
      rw [hcur] at hfit
      simp only [List.length_nil] at hfit
      omega
    · simp only [hcur, if_false]
      left
      simp only [List.length_append, List.length_cons]
      push_cast
      omega
  · simp only [hfit, if_false]
    by_cases hlong : (s.length : Int) > cs
    · simp only [hlong, if_true]
      by_cases hcur : st.cur = []
      · simp only [hcur, if_true]
        exact sizeInv_foldl_wordStep md cs _ _ (splitWords_wsFree s) ⟨h.1, sizeOk_nil cs⟩
      · simp only [hcur, if_false]
        exact sizeInv_foldl_wordStep md cs _ _ (splitWords_wsFree s)
          ⟨(sizeInv_emit md cs st st.cur h h.2).1, sizeOk_nil cs⟩
    · simp only [hlong, if_false]
      by_cases hcur : st.cur = []
      · simp only [hcur, if_true]
        refine ⟨h.1, Or.inl ?_⟩
        show ((s.length : Int)) ≤ cs
        omega
      · simp only [hcur, if_false]
        refine ⟨(sizeInv_emit md cs st st.cur h h.2).1, Or.inl ?_⟩
        show ((s.length : Int)) ≤ cs
        omega

theorem sizeInv_foldl_sentStep (md : DocumentMetadata) (cs : Int) :
    ∀ (sts : List (List Char)) (st : CState),
      SizeInv cs st → SizeInv cs (sts.foldl (sentStep md cs) st) := by
  intro sts
  induction sts with
  | nil => intro st h; exact h
  | cons s rest ih =>
    intro st h
    rw [List.foldl_cons]
    exact ih _ (sizeInv_sentStep md cs st s h)

/-- Size bound for the full chunker. -/
theorem format_for_rag_sizes (text : String) (md : Option DocumentMetadata) (cs : Int) :
    ∀ c ∈ MarkdownFormatter.format_for_rag text md cs, SizeOk cs c.text.data := by
  unfold MarkdownFormatter.format_for_rag
  by_cases hempty : strip text.data = []
  · simp [hempty]
  · simp only [hempty, if_false]
    by_cases hshort : (((strip text.data).length : Nat) : Int) ≤ cs
    · simp only [hshort, if_true]
      intro c hc
      simp only [List.mem_singleton] at hc
      subst hc
      exact Or.inl hshort
    · simp only [hshort, if_false]
      set md2 := match md with
        | some m => m
        | none => MetadataParser.parse text text with hmd2
      set st := (sentencesOf text.data).foldl (sentStep md2 cs) ⟨[], [], 0⟩ with hst
      have hinv : SizeInv cs st := by
        rw [hst]
        refine sizeInv_foldl_sentStep md2 cs _ _ (And.intro ?_ (sizeOk_nil cs))
        intro c hc
        exact absurd hc (List.not_mem_nil c)
      by_cases hcur : st.cur = []
      · simp only [hcur, if_true]
        exact hinv.1
      · simp only [hcur, if_false]
        exact (sizeInv_emit md2 cs st st.cur hinv hinv.2).1

/-! ### Helpers for pointwise index access and position records -/

theorem map_eq_range_get (l : List Chunk) (f : Chunk → Nat)
    (h : l.map f = List.range l.length) (i : Nat) (hi : i < l.length) :
    f (l.get ⟨i, hi⟩) = i := by
  have hi2 : i < (l.map f).length := by simpa using hi
  calc f (l.get ⟨i, hi⟩) = (l.map f).get ⟨i, hi2⟩ := by
        simp
    _ = i := by
        rw [List.get_eq_getElem]
        simp only [h]
        simp

theorem extractPosGo_lines (orig : List Char) :
    ∀ fuel i rest,
      ((extractPosGo orig fuel i rest).all (fun r => decide (1 ≤ r.line))) = true := by
  intro fuel
  induction fuel with
  | zero => intro i rest; rfl
  | succ n ih =>
    intro i rest
    cases rest with
    | nil => rfl
    | cons c cs =>
      rw [extractPosGo]
      cases hmatch : matchNumId (c :: cs) with
      | none => exact ih (i + 1) cs
      | some v =>
        obtain ⟨ds, dOff, len⟩ := v
        rw [List.all_cons]
        refine (Bool.and_eq_true _ _).mpr ⟨?_, ih (i + len) ((c :: cs).drop len)⟩
        simp

/-! ### Claim theorems -/

/-- Concrete input for the idempotence counterexample: a line where removing
a standalone page marker creates a fresh `Num. X - Pág. Y` occurrence. -/
def c1Input : String :=
  ⟨("Num. 7 --- página ".data) ++ [lbrace, rbrace] ++ (" --- - Pág. 9".data)⟩

/-- C1 (counterexample): `TextNormalizer.normalize` is not idempotent.  On
`c1Input` the first pass removes the `--- página \x7b\x7d ---` marker,
splicing the surrounding text into a new `Num. 7 - Pág. 9` footer that only
the second pass removes, so `normalize (normalize x) ≠ normalize x`. -/
theorem C1_normalize_not_idempotent :
    TextNormalizer.normalize (TextNormalizer.normalize c1Input)
      ≠ TextNormalizer.normalize c1Input := by
  decide

/-- C1 (amended): `normalize` is idempotent on the representative noisy
inputs named by the spec - excessive blank lines and runs of uppercase
(including the acronym-bearing uppercase line) - though not for all
inputs. -/
theorem C1_normalize_idempotent_representative :
    (TextNormalizer.normalize (TextNormalizer.normalize "a\n\n\n\nb")
      = TextNormalizer.normalize "a\n\n\n\nb")
    ∧ (TextNormalizer.normalize (TextNormalizer.normalize "ESTE É UM TEXTO EM CAIXA ALTA")
      = TextNormalizer.normalize "ESTE É UM TEXTO EM CAIXA ALTA")
    ∧ (TextNormalizer.normalize
        (TextNormalizer.normalize "O STF E O STJ DECIDIRAM CONFORME O CPC")
      = TextNormalizer.normalize "O STF E O STJ DECIDIRAM CONFORME O CPC") := by
  refine ⟨by decide, by decide, by decide⟩

/-- C2 (counterexample): `format_for_rag` does not reject the invalid
`chunk_size = 0`; on a non-empty text it silently proceeds and returns
word-level chunks. -/
theorem C2_zero_chunk_size_returns_chunks :
    MarkdownFormatter.format_for_rag ("Primeira frase. Segunda.") none 0 ≠ []
    ∧ (MarkdownFormatter.format_for_rag ("Primeira frase. Segunda.") none 0).map
        (fun c => c.text) = ["Primeira", "frase.", "Segunda."] := by
  refine ⟨by decide, by decide⟩

/-- C2 (amended): `format_for_rag` performs no `chunk_size` validation - for
every non-positive `chunk_size` and every text with non-whitespace content
it returns a non-empty chunk sequence instead of failing. -/
theorem C2_invalid_chunk_size_accepted (text : String) (md : Option DocumentMetadata)
    (cs : Int) (hcs : cs ≤ 0) (hne : strip text.data ≠ []) :
    MarkdownFormatter.format_for_rag text md cs ≠ [] := by
  intro hempty
  have hc := format_for_rag_content text md cs
  rw [hempty] at hc
  simp only [List.map_nil, List.flatten_nil] at hc
  exact strip_ne_nil_dropWs text.data hne hc.symm

/-- Witness for C2 (amended) at `chunk_size = -5`. -/
theorem C2_invalid_chunk_size_accepted_witness :
    ((-5 : Int) ≤ 0 ∧ strip ("Oi galera.".data) ≠ [])
    ∧ MarkdownFormatter.format_for_rag ("Oi galera.") none (-5) ≠ [] :=
  ⟨⟨by decide, by decide⟩,
   C2_invalid_chunk_size_accepted ("Oi galera.") none (-5) (by decide) (by decide)⟩

/-- C3: for every text and positive `chunk_size`, the chunk texts
concatenated in order carry exactly the non-whitespace content of the input
in its original order; the `i`-th chunk has `chunk_index = i` both at chunk
level and inside its metadata snapshot; and metadata snapshots of distinct
chunks are distinct values (no sharing). -/
theorem C3_chunk_roundtrip (text : String) (md : Option DocumentMetadata) (cs : Int)
    (h : 0 < cs) :
    dropWs ((MarkdownFormatter.format_for_rag text md cs).map
        (fun c => c.text.data)).flatten = dropWs text.data
    ∧ (∀ i (hi : i < (MarkdownFormatter.format_for_rag text md cs).length),
        ((MarkdownFormatter.format_for_rag text md cs).get ⟨i, hi⟩).chunk_index = i
        ∧ ((MarkdownFormatter.format_for_rag text md cs).get ⟨i, hi⟩).metadata.chunk_index = i)
    ∧ (∀ i j (hi : i < (MarkdownFormatter.format_for_rag text md cs).length)
        (hj : j < (MarkdownFormatter.format_for_rag text md cs).length), i ≠ j →
        ((MarkdownFormatter.format_for_rag text md cs).get ⟨i, hi⟩).metadata
          ≠ ((MarkdownFormatter.format_for_rag text md cs).get ⟨j, hj⟩).metadata) := by
  refine ⟨?_, ?_, ?_⟩
  · rw [dropWs_flatten, List.map_map]
    exact format_for_rag_content text md cs
  · intro i hi
    exact ⟨map_eq_range_get _ _ (format_for_rag_ranges text md cs).1 i hi,
      map_eq_range_get _ _ (format_for_rag_ranges text md cs).2 i hi⟩
  · intro i j hi hj hne heq
    have e1 := map_eq_range_get _ _ (format_for_rag_ranges text md cs).2 i hi
    have e2 := map_eq_range_get _ _ (format_for_rag_ranges text md cs).2 j hj
    apply hne
    rw [← e1, ← e2, heq]

/-- Witness for C3 on the round-trip text of the spec at `chunk_size = 25`. -/
theorem C3_chunk_roundtrip_witness :
    (0 : Int) < 25
    ∧ dropWs ((MarkdownFormatter.format_for_rag
        ("Primeira sentença. Segunda sentença. Terceira sentença.") none 25).map
        (fun c => c.text.data)).flatten
      = dropWs ("Primeira sentença. Segunda sentença. Terceira sentença.".data) :=
  ⟨by decide,
   (C3_chunk_roundtrip ("Primeira sentença. Segunda sentença. Terceira sentença.")
     none 25 (by decide)).1⟩

/-- C4: the metadata parser is embedded as the two-parameter entry point
`parse raw_text normalized_text`; its document positions are exactly the
position extraction over `raw_text` (so they do not depend on the
normalized text), and every recorded line number is 1-based. -/
theorem C4_parse_positions_from_raw (raw n1 n2 : String) :
    (MetadataParser.parse raw n1).document_positions
      = RegexPatterns.extract_document_ids_with_positions raw
    ∧ (MetadataParser.parse raw n1).document_positions
      = (MetadataParser.parse raw n2).document_positions
    ∧ ((MetadataParser.parse raw n1).document_positions.all
        (fun r => decide (1 ≤ r.line))) = true :=
  ⟨rfl, rfl, extractPosGo_lines raw.data raw.data.length 0 raw.data⟩

/-- C5 (counterexample): the quoted expected output of the spec lowercases
the acronyms; the normalizer does not produce it. -/
theorem C5_spec_output_wrong :
    TextNormalizer.normalize ("O STF E O STJ DECIDIRAM CONFORME O CPC")
      ≠ "O stf e o stj decidiram conforme o cpc" := by
  decide

/-- C5 (amended): the acronym-preservation example yields
`O STF e o STJ decidiram conforme o CPC` - STF, STJ, CPC retained exactly in
uppercase, all other words sentence-cased, line-initial letter
capitalized. -/
theorem C5_acronyms_preserved :
    TextNormalizer.normalize ("O STF E O STJ DECIDIRAM CONFORME O CPC")
      = "O STF e o STJ decidiram conforme o CPC" := by
  decide

/-- C6: for every `chunk_size`, whitespace-only text yields the empty chunk
sequence, and a text with non-whitespace content whose length is at most
`chunk_size` yields exactly one chunk carrying index 0 at both levels. -/
theorem C6_degenerate_chunking (text : String) (md : Option DocumentMetadata) (cs : Int) :
    (strip text.data = [] → MarkdownFormatter.format_for_rag text md cs = [])
    ∧ (strip text.data ≠ [] → ((text.length : Int) ≤ cs) →
        (MarkdownFormatter.format_for_rag text md cs).length = 1
        ∧ ∀ c ∈ MarkdownFormatter.format_for_rag text md cs,
            c.chunk_index = 0 ∧ c.metadata.chunk_index = 0) := by
  constructor
  · intro hempty
    unfold MarkdownFormatter.format_for_rag
    rw [if_pos hempty]
  · intro hne hlen
    have hshort : (((strip text.data).length : Nat) : Int) ≤ cs := by
      have h1 : (strip text.data).length ≤ text.data.length := strip_length_le _
      have h2 : text.length = text.data.length := rfl
      rw [h2] at hlen
      omega
    unfold MarkdownFormatter.format_for_rag
    rw [if_neg hne, if_pos hshort]
    refine ⟨rfl, ?_⟩
    intro c hc
    rw [List.mem_singleton] at hc
    subst hc
    exact ⟨rfl, rfl⟩

/-- Witness for C6: whitespace-only text, and a short text at
`chunk_size = 100`. -/
theorem C6_degenerate_chunking_witness :
    MarkdownFormatter.format_for_rag ("  \n\n  ") none 100 = []
    ∧ (MarkdownFormatter.format_for_rag ("Texto curto.") none 100).length = 1
    ∧ ∀ c ∈ MarkdownFormatter.format_for_rag ("Texto curto.") none 100,
        c.chunk_index = 0 ∧ c.metadata.chunk_index = 0 :=
  ⟨(C6_degenerate_chunking ("  \n\n  ") none 100).1 (by decide),
   ((C6_degenerate_chunking ("Texto curto.") none 100).2 (by decide) (by decide)).1,
   ((C6_degenerate_chunking ("Texto curto.") none 100).2 (by decide) (by decide)).2⟩

/-- C7: the code of `_normalize_whitespace` only right-strips lines, so a
leading space survives inside a line (against the trailing/leading trim its
own comment and the spec state), and a duplicate line separated by a blank
line is also dropped (the previous-line tracker is not reset by blanks,
against the stated consecutive-only semantics): evaluated at the failing
inputs. -/
theorem C7_whitespace_stage_behavior :
    TextNormalizer.normalize_whitespace ("x\n  a") = "x\n a"
    ∧ TextNormalizer.normalize_whitespace ("A\n\nA") = "A" := by
  refine ⟨by decide, by decide⟩

/-- C8: `generate_anchor` is exactly `doc-` prefixing,
`generate_cross_reference` is exactly the `[#id](#doc-id)` link, and both
are deterministic (equal outputs on equal inputs). -/
theorem C8_anchor_determinism (doc_id : String) :
    IndexGenerator.generate_anchor doc_id = "doc-" ++ doc_id
    ∧ IndexGenerator.generate_cross_reference doc_id
      = "[#" ++ doc_id ++ "](#doc-" ++ doc_id ++ ")"
    ∧ IndexGenerator.generate_anchor doc_id = IndexGenerator.generate_anchor doc_id
    ∧ IndexGenerator.generate_cross_reference doc_id
      = IndexGenerator.generate_cross_reference doc_id := by
  refine ⟨rfl, ?_, rfl, rfl⟩
  unfold IndexGenerator.generate_cross_reference IndexGenerator.generate_anchor
  apply String.ext
  simp only [String.data_append]
  simp [List.append_assoc]

/-- C9: with a positive `chunk_size`, every emitted chunk fits in
`chunk_size` except a chunk that is a single whitespace-free word longer
than `chunk_size`. -/
theorem C9_chunk_size_bound (text : String) (md : Option DocumentMetadata) (cs : Int)
    (h : 0 < cs) :
    ∀ c ∈ MarkdownFormatter.format_for_rag text md cs,
      (c.text.length : Int) ≤ cs
      ∨ (wsFreeB c.text.data = true ∧ cs < (c.text.length : Int)) := by
  intro c hc
  exact format_for_rag_sizes text md cs c hc

/-- Witness for C9 on a text with an over-long word at `chunk_size = 10`. -/
theorem C9_chunk_size_bound_witness :
    (0 : Int) < 10
    ∧ ∀ c ∈ MarkdownFormatter.format_for_rag
        ("palavraenormequeexcedeolimite. Fim.") none 10,
        (c.text.length : Int) ≤ 10
        ∨ (wsFreeB c.text.data = true ∧ 10 < (c.text.length : Int)) :=
  ⟨by decide,
   C9_chunk_size_bound ("palavraenormequeexcedeolimite. Fim.") none 10 (by decide)⟩

/-- C10: constructing a `DocumentPiece` with an empty anchor sets the anchor
to `doc-<doc_id>` in post-init; a non-empty anchor is kept unchanged; and
every other field is exactly the constructor argument. -/
theorem C10_post_init_anchor (doc_id doc_type : String) (line position : Int)
    (date signatory : Option String) (anchor : String) :
    (mkDocumentPiece doc_id doc_type line position date signatory "").anchor
      = "doc-" ++ doc_id
    ∧ (anchor ≠ "" →
        (mkDocumentPiece doc_id doc_type line position date signatory anchor).anchor
          = anchor)
    ∧ (mkDocumentPiece doc_id doc_type line position date signatory anchor).doc_id = doc_id
    ∧ (mkDocumentPiece doc_id doc_type line position date signatory anchor).doc_type = doc_type
    ∧ (mkDocumentPiece doc_id doc_type line position date signatory anchor).line = line
    ∧ (mkDocumentPiece doc_id doc_type line position date signatory anchor).position = position
    ∧ (mkDocumentPiece doc_id doc_type line position date signatory anchor).date = date
    ∧ (mkDocumentPiece doc_id doc_type line position date signatory anchor).signatory
      = signatory := by
  refine ⟨by simp [mkDocumentPiece, DocumentPiece.postInit], ?_, ?_, ?_, ?_, ?_, ?_, ?_⟩
  · intro hne
    simp [mkDocumentPiece, DocumentPiece.postInit, hne]
  all_goals by_cases hanchor : anchor = "" <;>
    simp [mkDocumentPiece, DocumentPiece.postInit, hanchor]

/-- Witness for C10: default and explicit anchors on concrete pieces. -/
theorem C10_post_init_anchor_witness :
    (mkDocumentPiece ("12345678") ("Decisão") 3 120 none none "").anchor = "doc-12345678"
    ∧ (mkDocumentPiece ("12345678") ("Decisão") 3 120 none none "custom").anchor = "custom" :=
  ⟨(C10_post_init_anchor ("12345678") ("Decisão") 3 120 none none "").1,
   (C10_post_init_anchor ("12345678") ("Decisão") 3 120 none none "custom").2.1 (by decide)⟩

end Lex
